import Mathlib

/-!
Verification model of the `rust-bitvmx-storage-backend` crate.

The development is a shallow embedding of `src/storage.rs`,
`src/password_policy.rs` and the payload framing of `src/backup_io.rs`.
Byte strings are modelled as `List Nat` (well-formed states keep every
byte below 256), the ordered transactional engine (rocksdb) as an
association list sorted by byte-lexicographic key order, and the
external crates (`cocoon` envelope wrap, `age` stream encryption) as
abstract but executable key-checking wrappers, following the contracts
stated for them in the specification.
-/

namespace BitVMX

/-- Boolean test that the first list is a prefix of the second
(models Rust `starts_with` on slices and on `str` character data). -/
def listPre [BEq α] : List α → List α → Bool
  | [], _ => true
  | _ :: _, [] => false
  | a :: as, b :: bs => a == b && listPre as bs

/-- Byte-lexicographic strict order on byte strings: the order in which
rocksdb iterates keys. -/
def bytesLt : List Nat → List Nat → Bool
  | _, [] => false
  | [], _ :: _ => true
  | a :: as, b :: bs => a < b || (a == b && bytesLt as bs)

/-- UTF-8 encoding of one character, as Rust's `str::as_bytes` produces it. -/
def utf8EncodeChar (c : Char) : List Nat :=
  if c.toNat < 128 then [c.toNat]
  else if c.toNat < 2048 then [192 + c.toNat / 64, 128 + c.toNat % 64]
  else if c.toNat < 65536 then
    [224 + c.toNat / 4096, 128 + c.toNat / 64 % 64, 128 + c.toNat % 64]
  else
    [240 + c.toNat / 262144, 128 + c.toNat / 4096 % 64, 128 + c.toNat / 64 % 64,
      128 + c.toNat % 64]

/-- UTF-8 byte encoding of a string (Rust `String::as_bytes`/`into_bytes`). -/
def utf8Encode (s : String) : List Nat := s.data.flatMap utf8EncodeChar

/-- Code point encoded by a two-byte UTF-8 sequence. -/
def pt2 (b b1 : Nat) : Nat := (b - 192) * 64 + (b1 - 128)

/-- Code point encoded by a three-byte UTF-8 sequence. -/
def pt3 (b b1 b2 : Nat) : Nat := (b - 224) * 4096 + (b1 - 128) * 64 + (b2 - 128)

/-- Code point encoded by a four-byte UTF-8 sequence. -/
def pt4 (b b1 b2 b3 : Nat) : Nat :=
  (b - 240) * 262144 + (b1 - 128) * 4096 + (b2 - 128) * 64 + (b3 - 128)

/-- A UTF-8 continuation byte. -/
def contB (b : Nat) : Prop := 128 ≤ b ∧ b < 192

instance (b : Nat) : Decidable (contB b) := by
  unfold contB
  infer_instance

/-- Decode the tail of a two-byte sequence with lead byte `b`. -/
def dec2 (b : Nat) : List Nat → Option (Nat × List Nat)
  | b1 :: r => if contB b1 then some (pt2 b b1, r) else none
  | [] => none

/-- Decode the tail of a three-byte sequence with lead byte `b`, rejecting
overlong encodings and surrogates. -/
def dec3 (b : Nat) : List Nat → Option (Nat × List Nat)
  | b1 :: b2 :: r =>
    if contB b1 ∧ contB b2 ∧ 2048 ≤ pt3 b b1 b2 ∧
        (pt3 b b1 b2 < 55296 ∨ 57343 < pt3 b b1 b2) then
      some (pt3 b b1 b2, r)
    else none
  | _ => none

/-- Decode the tail of a four-byte sequence with lead byte `b`, rejecting
overlong and out-of-range encodings. -/
def dec4 (b : Nat) : List Nat → Option (Nat × List Nat)
  | b1 :: b2 :: b3 :: r =>
    if contB b1 ∧ contB b2 ∧ contB b3 ∧ 65536 ≤ pt4 b b1 b2 b3 ∧
        pt4 b b1 b2 b3 < 1114112 then
      some (pt4 b b1 b2 b3, r)
    else none
  | _ => none

/-- Decode one UTF-8 character: its code point and the remaining bytes.
Malformed sequences, overlong encodings, surrogates and out-of-range
points are rejected, exactly the prefixes Rust's `String::from_utf8`
rejects. -/
def utf8DecodeChar? : List Nat → Option (Nat × List Nat)
  | [] => none
  | b :: rest =>
    if b < 128 then some (b, rest)
    else if b < 194 then none
    else if b < 224 then dec2 b rest
    else if b < 240 then dec3 b rest
    else if b < 245 then dec4 b rest
    else none

/-- A successful `dec2` consumes one byte of the tail. -/
theorem dec2_length {b : Nat} {l : List Nat} {n : Nat} {r : List Nat}
    (h : dec2 b l = some (n, r)) : r.length < l.length := by
  cases l with
  | nil => exact Option.noConfusion h
  | cons b1 r' =>
    rw [dec2] at h
    split_ifs at h
    obtain ⟨rfl, rfl⟩ : pt2 b b1 = n ∧ r' = r := by simpa using h
    simp

/-- A successful `dec3` consumes two bytes of the tail. -/
theorem dec3_length {b : Nat} {l : List Nat} {n : Nat} {r : List Nat}
    (h : dec3 b l = some (n, r)) : r.length < l.length := by
  cases l with
  | nil => exact Option.noConfusion h
  | cons b1 l1 =>
    cases l1 with
    | nil => exact Option.noConfusion h
    | cons b2 r' =>
      rw [dec3] at h
      split_ifs at h
      obtain ⟨rfl, rfl⟩ : pt3 b b1 b2 = n ∧ r' = r := by simpa using h
      simp
      omega

/-- A successful `dec4` consumes three bytes of the tail. -/
theorem dec4_length {b : Nat} {l : List Nat} {n : Nat} {r : List Nat}
    (h : dec4 b l = some (n, r)) : r.length < l.length := by
  cases l with
  | nil => exact Option.noConfusion h
  | cons b1 l1 =>
    cases l1 with
    | nil => exact Option.noConfusion h
    | cons b2 l2 =>
      cases l2 with
      | nil => exact Option.noConfusion h
      | cons b3 r' =>
        rw [dec4] at h
        split_ifs at h
        obtain ⟨rfl, rfl⟩ : pt4 b b1 b2 b3 = n ∧ r' = r := by simpa using h
        simp
        omega

/-- Each decoded character consumes at least one byte. -/
theorem utf8DecodeChar?_length {l : List Nat} {n : Nat} {r : List Nat}
    (h : utf8DecodeChar? l = some (n, r)) : r.length < l.length := by
  cases l with
  | nil => exact Option.noConfusion h
  | cons b rest =>
    rw [utf8DecodeChar?] at h
    split_ifs at h
    · obtain ⟨rfl, rfl⟩ : b = n ∧ rest = r := by simpa using h
      simp
    · have := dec2_length h
      simp at this ⊢
      omega
    · have := dec3_length h
      simp at this ⊢
      omega
    · have := dec4_length h
      simp at this ⊢
      omega

/-- Fuelled form of the UTF-8 decoder (each step consumes at least one
byte, so fuel equal to the length is always enough; the fuel only makes
the recursion structural). -/
def utf8DecodeFuel : Nat → List Nat → Option (List Nat)
  | _, [] => some []
  | 0, _ :: _ => none
  | fuel + 1, b :: rest =>
    match utf8DecodeChar? (b :: rest) with
    | some (n, r) => (utf8DecodeFuel fuel r).map (n :: ·)
    | none => none

/-- Any sufficient fuel computes the same decoding. -/
theorem utf8DecodeFuel_congr :
    ∀ (f1 f2 : Nat) (bs : List Nat), bs.length ≤ f1 → bs.length ≤ f2 →
      utf8DecodeFuel f1 bs = utf8DecodeFuel f2 bs := by
  intro f1
  induction f1 with
  | zero =>
    intro f2 bs h1 h2
    have : bs = [] := List.eq_nil_of_length_eq_zero (by omega)
    subst this
    cases f2 <;> rfl
  | succ f1 ih =>
    intro f2 bs h1 h2
    cases bs with
    | nil => cases f2 <;> rfl
    | cons b rest =>
      cases f2 with
      | zero => simp at h2
      | succ f2 =>
        rw [utf8DecodeFuel, utf8DecodeFuel]
        cases hd : utf8DecodeChar? (b :: rest) with
        | none => rfl
        | some nr =>
          obtain ⟨n, r⟩ := nr
          have hr := utf8DecodeChar?_length hd
          simp only [List.length_cons] at hr h1 h2
          simp only [ih f2 r (by omega) (by omega)]

/-- UTF-8 decoder to a list of code points: decode characters until the
input is exhausted, failing where Rust's `String::from_utf8` fails. -/
def utf8Decode? (bs : List Nat) : Option (List Nat) :=
  utf8DecodeFuel bs.length bs

/-- One decoding step of `utf8Decode?`. -/
theorem utf8Decode_step (b : Nat) (rest : List Nat) :
    utf8Decode? (b :: rest) =
      match utf8DecodeChar? (b :: rest) with
      | some (n, r) => (utf8Decode? r).map (n :: ·)
      | none => none := by
  rw [utf8Decode?, List.length_cons, utf8DecodeFuel]
  cases hd : utf8DecodeChar? (b :: rest) with
  | none => rfl
  | some nr =>
    obtain ⟨n, r⟩ := nr
    have hr := utf8DecodeChar?_length hd
    simp only [List.length_cons] at hr
    simp only [utf8Decode?]
    simp only [utf8DecodeFuel_congr rest.length r.length r (by omega) (by omega)]

/-- Rust `String::from_utf8` over a byte vector: the decoded string, or
`none` where the source raises `ConversionError`. -/
def strDecode? (bs : List Nat) : Option String :=
  (utf8Decode? bs).map (fun l => String.mk (l.map Char.ofNat))

/-- Lowercase hexadecimal digit of a nibble, as the `hex` crate emits. -/
def hexDigit (n : Nat) : Nat := if n < 10 then 48 + n else 87 + n

/-- `hex::encode` of a byte string, as the ASCII byte sequence that the
serialized record holds. -/
def hexEncode (bs : List Nat) : List Nat :=
  bs.flatMap (fun b => [hexDigit (b / 16), hexDigit (b % 16)])

/-- Value of one ASCII hex digit (`0-9`, `a-f`, `A-F`), or `none`. -/
def hexVal? (c : Nat) : Option Nat :=
  if 48 ≤ c ∧ c ≤ 57 then some (c - 48)
  else if 97 ≤ c ∧ c ≤ 102 then some (c - 87)
  else if 65 ≤ c ∧ c ≤ 70 then some (c - 55)
  else none

/-- `hex::decode` of an ASCII byte string: fails on odd length or on a
non-hex byte (the source maps either failure, like a UTF-8 failure of the
same bytes, to `ConversionError`). -/
def hexDecode? : List Nat → Option (List Nat)
  | [] => some []
  | [_] => none
  | a :: b :: rest =>
    match hexVal? a, hexVal? b, hexDecode? rest with
    | some x, some y, some r => some ((16 * x + y) :: r)
    | _, _, _ => none

/-- One stored engine entry: key bytes and value bytes. -/
abbrev Entry := List Nat × List Nat

/-- State of the ordered transactional KV engine (rocksdb): an association
list kept sorted by `bytesLt` on keys, mirroring the engine's iteration
order. -/
abbrev EngineState := List Entry

/-- Engine `put`: insert or replace, keeping the byte-lexicographic order. -/
def enginePut : EngineState → List Nat → List Nat → EngineState
  | [], k, v => [(k, v)]
  | (k', v') :: rest, k, v =>
    if bytesLt k k' then (k, v) :: (k', v') :: rest
    else if k = k' then (k, v) :: rest
    else (k', v') :: enginePut rest k v

/-- Engine point lookup. -/
def engineGet : EngineState → List Nat → Option (List Nat)
  | [], _ => none
  | (k', v) :: rest, k => if k = k' then some v else engineGet rest k

/-- Engine `delete` of a key. -/
def engineDelete (db : EngineState) (k : List Nat) : EngineState :=
  db.filter (fun e => e.1 ≠ k)

/-- The engine invariant: keys strictly ascending in byte order (every
rocksdb iteration presents keys this way). -/
def sortedKeysB : EngineState → Bool
  | [] => true
  | [_] => true
  | a :: b :: rest => bytesLt a.1 b.1 && sortedKeysB ((b :: rest) : EngineState)

/-- Well-formed byte strings: every byte below 256. -/
def bytesWf (bs : List Nat) : Bool := bs.all (· < 256)

/-- Well-formed engine state: all keys and values are byte strings. -/
def engineWf (db : EngineState) : Bool :=
  db.all (fun e => bytesWf e.1 && bytesWf e.2)

/-- One operation buffered inside a live engine transaction. -/
inductive TxOp
  | put (k v : List Nat)
  | del (k : List Nat)
deriving DecidableEq, Repr

/-- Apply one buffered operation to the engine. -/
def applyOp (db : EngineState) : TxOp → EngineState
  | .put k v => enginePut db k v
  | .del k => engineDelete db k

/-- Committing a transaction applies its operations in issue order. -/
def applyOps (db : EngineState) (ops : List TxOp) : EngineState :=
  ops.foldl applyOp db

/-- `PasswordPolicy` of `src/password_policy.rs`: the four configurable
minima (also the shape of `PasswordPolicyConfig`). -/
structure PasswordPolicy where
  min_length : Nat
  min_number_of_special_chars : Nat
  min_number_of_uppercase : Nat
  min_number_of_digits : Nat
deriving DecidableEq, Repr

/-- The default policy `{12, 3, 3, 3}`. -/
def PasswordPolicy.default : PasswordPolicy := ⟨12, 3, 3, 3⟩

/-- The fixed uppercase Latin set `UPPERCASE` of `src/password_policy.rs`. -/
def UPPERCASE : List Char :=
  ['A', 'B', 'C', 'D', 'E', 'F', 'G', 'H', 'I', 'J', 'K', 'L', 'M', 'N', 'O',
   'P', 'Q', 'R', 'S', 'T', 'U', 'V', 'W', 'X', 'Y', 'Z']

/-- The fixed digit set `DIGITS` of `src/password_policy.rs`. -/
def DIGITS : List Char := ['0', '1', '2', '3', '4', '5', '6', '7', '8', '9']

/-- The fixed ASCII special set `SPECIAL` of `src/password_policy.rs`. -/
def SPECIAL : List Char :=
  ['!', '"', '#', '$', '%', '&', '\'', '(', ')', '*', '+', ',', '-', '.', '/',
   ':', ';', '<', '=', '>', '?', '@', '[', '\\', ']', '^', '_', '`', '{', '|',
   '}', '~']

/-- `PasswordPolicy::is_valid`.  Note `password.len()` in the source is the
UTF-8 byte length of the string, while the three counts iterate characters. -/
def PasswordPolicy.is_valid (pol : PasswordPolicy) (password : String) : Bool :=
  let has_enough_length := (utf8Encode password).length ≥ pol.min_length
  let has_enough_special_chars :=
    (password.data.filter (fun c => SPECIAL.contains c)).length ≥
      pol.min_number_of_special_chars
  let has_enough_uppercase_chars :=
    (password.data.filter (fun c => UPPERCASE.contains c)).length ≥
      pol.min_number_of_uppercase
  let has_enough_digits :=
    (password.data.filter (fun c => DIGITS.contains c)).length ≥
      pol.min_number_of_digits
  has_enough_length && has_enough_special_chars && has_enough_uppercase_chars &&
    has_enough_digits

/-- `StorageError` of `src/error.rs` (payloads kept where a claim observes
them; engine-error and crypto-error causes are dropped). -/
inductive StorageError
  | NotFound (what : String)
  | WriteError
  | ReadError
  | ConversionError
  | SerializationError
  | CreationError
  | CommitError
  | IoError
  | FailedToEncryptData
  | FailedToDecryptData
  | WeakPassword (pol : PasswordPolicy)
  | RandomDekGenerationError
  | WrongPassword
  | NoPasswordSet
  | GlobalTransactionAlreadyActiveError
deriving DecidableEq, Repr

instance {ε α : Type} [DecidableEq ε] [DecidableEq α] : DecidableEq (Except ε α) :=
  fun x y =>
    match x, y with
    | .ok a, .ok b => if h : a = b then isTrue (by rw [h]) else isFalse (by simp [h])
    | .error a, .error b =>
      if h : a = b then isTrue (by rw [h]) else isFalse (by simp [h])
    | .ok _, .error _ => isFalse (by simp)
    | .error _, .ok _ => isFalse (by simp)

/-- Modelled from the spec: the `cocoon` crate's passphrase wrap (§4.3
Envelope Crypto, an external crate).  A wrapped blob is reproduced as the
wrapping key followed by the payload, so that `cocoonParse` succeeds
exactly on the key that produced the blob and returns the payload — the
contract the spec states (unwrap failure on any other passphrase). -/
def cocoonDump (key data : List Nat) : List Nat :=
  key.length :: (key ++ data)

/-- Modelled from the spec: the `cocoon` crate's parse (unwrap): succeeds
if and only if the same key produced the blob, yielding the payload. -/
def cocoonParse (key blob : List Nat) : Option (List Nat) :=
  match blob with
  | [] => none
  | n :: rest =>
    if n = key.length ∧ rest.take n = key then some (rest.drop n) else none

/-- The reserved engine key `DEK_KEY = "DEK"`, as bytes. -/
def dekKeyBytes : List Nat := utf8Encode "DEK"

/-- The in-memory `Storage` struct of `src/storage.rs`: engine state, the
transaction registry (`RefCell<HashMap<Uuid, Transaction>>`, handles
modelled as `Nat`, most recent insertion first), the resident DEK (the
field the source names `password`), and the effective password policy. -/
structure Storage where
  db : EngineState
  transactions : List (Nat × List TxOp)
  password : Option (List Nat)
  password_policy : PasswordPolicy
deriving DecidableEq, Repr

/-- Registry lookup (`HashMap::get_mut`): the most recent entry for a
handle. -/
def lookupTx : List (Nat × List TxOp) → Nat → Option (List TxOp)
  | [], _ => none
  | (h', ops) :: rest, h => if h = h' then some ops else lookupTx rest h

/-- Registry removal (`HashMap::remove`). -/
def removeTx (reg : List (Nat × List TxOp)) (h : Nat) : List (Nat × List TxOp) :=
  reg.filter (fun e => e.1 ≠ h)

/-- Append one buffered operation to a live transaction's list. -/
def pushTxOp : List (Nat × List TxOp) → Nat → TxOp → List (Nat × List TxOp)
  | [], _, _ => []
  | (h', ops) :: rest, h, op =>
    if h = h' then (h', ops ++ [op]) :: rest else (h', ops) :: pushTxOp rest h op

/-- Modelled from the spec: the `cocoon` value encryption used by
`Storage::encrypt_data` (external crate; §4.3): authenticated encryption
of the payload under the resident DEK. -/
def encrypt_data (dek data : List Nat) : List Nat := cocoonDump dek data

/-- Modelled from the spec: `Storage::decrypt_data` via the `cocoon`
crate: parse the envelope under the resident DEK. -/
def decrypt_data (dek data : List Nat) : Option (List Nat) := cocoonParse dek data

/-- `Storage::open_db` (both `new*` and `open*` funnel here).  The engine
open itself and the RNG are external; the already-present engine contents
and the freshly drawn 32 random bytes are passed in.  With a password the
policy is checked first; then the reserved DEK entry is parsed (present)
or created (absent). -/
def open_db (existing : EngineState) (password : Option String)
    (policy_config : Option PasswordPolicy) (freshDek : List Nat) :
    Except StorageError Storage :=
  let pol := policy_config.getD PasswordPolicy.default
  match password with
  | none => .ok ⟨existing, [], none, pol⟩
  | some pw =>
    if ¬ pol.is_valid pw then .error (.WeakPassword pol)
    else
      match engineGet existing dekKeyBytes with
      | some encrypted_dek =>
        match cocoonParse (utf8Encode pw) encrypted_dek with
        | none => .error .WrongPassword
        | some dek => .ok ⟨existing, [], some dek, pol⟩
      | none =>
        let encrypted_dek := cocoonDump (utf8Encode pw) freshDek
        .ok ⟨enginePut existing dekKeyBytes encrypted_dek, [], some freshDek, pol⟩

/-- `Storage::write`: one-shot transaction, value encrypted first when a
password is configured, then committed. -/
def Storage.write (s : Storage) (key value : String) : Storage × Except StorageError Unit :=
  let data := utf8Encode value
  let data := match s.password with
    | some dek => encrypt_data dek data
    | none => data
  ({ s with db := enginePut s.db (utf8Encode key) data }, .ok ())

/-- `Storage::delete`: one-shot transaction deleting the key. -/
def Storage.delete (s : Storage) (key : String) : Storage × Except StorageError Unit :=
  ({ s with db := engineDelete s.db (utf8Encode key) }, .ok ())

/-- `Storage::read`: point lookup, decrypt when a password is configured,
then UTF-8 decode. -/
def Storage.read (s : Storage) (key : String) : Except StorageError (Option String) :=
  match engineGet s.db (utf8Encode key) with
  | some data =>
    let decrypted : Except StorageError (List Nat) :=
      match s.password with
      | some dek =>
        match decrypt_data dek data with
        | some d => .ok d
        | none => .error .FailedToDecryptData
      | none => .ok data
    match decrypted with
    | .error e => .error e
    | .ok d =>
      match strDecode? d with
      | none => .error .ConversionError
      | some str => .ok (some str)
  | none => .ok none

/-- `Storage::has_key`. -/
def Storage.has_key (s : Storage) (key : String) : Bool :=
  (engineGet s.db (utf8Encode key)).isSome

/-- `Storage::keys`: iterate from start, UTF-8 decode every key. -/
def keysLoop : List Entry → Except StorageError (List String)
  | [] => .ok []
  | e :: rest =>
    match strDecode? e.1 with
    | none => .error .ConversionError
    | some k => (keysLoop rest).map (k :: ·)

/-- `Storage::keys`. -/
def Storage.keys (s : Storage) : Except StorageError (List String) :=
  keysLoop s.db

/-- Loop body of `Storage::partial_compare_keys`: decode each visited key,
emit while it starts with the prefix, break at the first that does not. -/
def pckLoop (p : String) : List Entry → Except StorageError (List String)
  | [] => .ok []
  | e :: rest =>
    match strDecode? e.1 with
    | none => .error .ConversionError
    | some k =>
      if listPre p.data k.data then (pckLoop p rest).map (k :: ·) else .ok []

/-- `Storage::partial_compare_keys`: the iterator is positioned at the
first key not below `key` (IteratorMode::From forward), then the loop
runs. -/
def Storage.partial_compare_keys (s : Storage) (key : String) :
    Except StorageError (List String) :=
  pckLoop key (s.db.dropWhile (fun e => bytesLt e.1 (utf8Encode key)))

/-- Loop body of `Storage::partial_compare`: like `pckLoop` but values are
decrypted (when a password is configured) and decoded too. -/
def pcLoop (p : String) (password : Option (List Nat)) :
    List Entry → Except StorageError (List (String × String))
  | [] => .ok []
  | e :: rest =>
    match strDecode? e.1 with
    | none => .error .ConversionError
    | some k =>
      let dv : Except StorageError (List Nat) :=
        match password with
        | some dek =>
          match decrypt_data dek e.2 with
          | some d => .ok d
          | none => .error .FailedToDecryptData
        | none => .ok e.2
      match dv with
      | .error er => .error er
      | .ok d =>
        match strDecode? d with
        | none => .error .ConversionError
        | some v =>
          if listPre p.data k.data then (pcLoop p password rest).map ((k, v) :: ·)
          else .ok []

/-- `Storage::partial_compare`. -/
def Storage.partial_compare (s : Storage) (key : String) :
    Except StorageError (List (String × String)) :=
  pcLoop key s.password (s.db.dropWhile (fun e => bytesLt e.1 (utf8Encode key)))

/-- `Storage::begin_transaction` with the fresh UUID passed in as `h`. -/
def Storage.begin_transaction (s : Storage) (h : Nat) : Storage :=
  { s with transactions := (h, []) :: s.transactions }

/-- `Storage::transactional_write`: buffered put on the named transaction,
value encrypted first when a password is configured. -/
def Storage.transactional_write (s : Storage) (key value : String) (h : Nat) :
    Storage × Except StorageError Unit :=
  match lookupTx s.transactions h with
  | none => (s, .error (.NotFound "Transaction"))
  | some _ =>
    let data := utf8Encode value
    let data := match s.password with
      | some dek => encrypt_data dek data
      | none => data
    ({ s with transactions := pushTxOp s.transactions h (.put (utf8Encode key) data) },
      .ok ())

/-- `Storage::transactional_delete`. -/
def Storage.transactional_delete (s : Storage) (key : String) (h : Nat) :
    Storage × Except StorageError Unit :=
  match lookupTx s.transactions h with
  | none => (s, .error (.NotFound "Transaction"))
  | some _ =>
    ({ s with transactions := pushTxOp s.transactions h (.del (utf8Encode key)) }, .ok ())

/-- `Storage::commit_transaction`: remove the handle from the registry,
then commit the removed transaction (apply its buffered operations). -/
def Storage.commit_transaction (s : Storage) (h : Nat) :
    Storage × Except StorageError Unit :=
  match lookupTx s.transactions h with
  | none => (s, .error (.NotFound "Transaction"))
  | some ops =>
    ({ s with transactions := removeTx s.transactions h, db := applyOps s.db ops },
      .ok ())

/-- `Storage::rollback_transaction`: remove the handle and drop the
transaction without committing. -/
def Storage.rollback_transaction (s : Storage) (h : Nat) :
    Storage × Except StorageError Unit :=
  match lookupTx s.transactions h with
  | none => (s, .error (.NotFound "Transaction"))
  | some _ =>
    ({ s with transactions := removeTx s.transactions h }, .ok ())

/-- Serialized form of one record inside the backup stream:
`hex(key) "," hex(value) ";"` as ASCII bytes (44 is `,`, 59 is `;`). -/
def recordBytes (e : Entry) : List Nat :=
  hexEncode e.1 ++ 44 :: (hexEncode e.2 ++ [59])

/-- The batching loop of `Storage::backup`: push each snapshot item into
`data_vec`; when `item_counter` reads 1000 the accumulated batch is
written and both reset, otherwise the counter is bumped; a non-empty
remainder is written after the loop. -/
def backupBatchesAux : List Entry → List Entry → Nat → List (List Entry)
  | [], data_vec, _ => if data_vec.isEmpty then [] else [data_vec]
  | e :: rest, data_vec, item_counter =>
    let data_vec' := data_vec ++ [e]
    if item_counter = 1000 then data_vec' :: backupBatchesAux rest [] 0
    else backupBatchesAux rest data_vec' (item_counter + 1)

/-- The batches `Storage::backup` writes, in order. -/
def backupBatches (l : List Entry) : List (List Entry) :=
  backupBatchesAux l [] 0

/-- Serialization of one batch (`serialized_data` of the source). -/
def serializeBatch (b : List Entry) : List Nat := b.flatMap recordBytes

/-- The whole plaintext payload of the backup stream: the concatenation of
the written batches. -/
def backupStream (db : EngineState) : List Nat :=
  ((backupBatches db).map serializeBatch).flatten

/-- A backup file as the model sees it: the stream key the `age` writer
was created with, and the plaintext payload it protects.  The `age`
layer itself is an external crate; it is modelled as a keyed transparent
transport that fails to open under any other key. -/
abbrev BackupFile := List Nat × List Nat

/-- `Storage::backup`: policy-check the backup password, wrap the fresh
backup DEK (the 32 random bytes are passed in) into the sidecar, and
write every snapshot record through the encrypting writer in batches.
Returns (sidecar contents, backup file). -/
def Storage.backup (s : Storage) (password : String) (backupDek : List Nat) :
    Except StorageError (List Nat × BackupFile) :=
  if ¬ s.password_policy.is_valid password then
    .error (.WeakPassword s.password_policy)
  else
    .ok (cocoonDump (utf8Encode password) backupDek, (backupDek, backupStream s.db))

/-- Split a record buffer at its first `,` (44), as
`buf.splitn(2, b',')` yields two parts; `none` when the buffer has no
comma, in which case the source's `if let (Some, Some)` silently skips
the record. -/
def splitFirstComma? (buf : List Nat) : Option (List Nat × List Nat) :=
  if 44 ∈ buf then
    some (buf.takeWhile (· ≠ 44), (buf.dropWhile (· ≠ 44)).tail)
  else none

/-- Length bound used for the termination of the restore loop. -/
theorem dropWhileLen (p : α → Bool) (l : List α) :
    (l.dropWhile p).length ≤ l.length := by
  induction l with
  | nil => simp
  | cons a l ih =>
    rw [List.dropWhile_cons]
    split
    · simp
      omega
    · simp

/-- Strict length bound used for the termination of the restore loop. -/
theorem dropWhileTailLen (p : α → Bool) (b : α) (rest : List α) :
    ((b :: rest).dropWhile p).tail.length < (b :: rest).length := by
  have h1 := dropWhileLen p (b :: rest)
  cases hd : (b :: rest).dropWhile p with
  | nil => simp
  | cons x xs =>
    rw [hd] at h1
    simp at h1 ⊢
    omega

/-- The `read_until(b';')` loop of `Storage::restore_backup`: each chunk
is read up to and including the delimiter, `buf.pop()` drops the
delimiter (or the last data byte when the stream ends without one), the
buffer is split at the first comma, both parts are UTF-8- and
hex-decoded, and the pair is put on the restore transaction; a buffer
without a comma is skipped.  The result is the list of puts issued on
the transaction, in order, together with the error that aborted the
loop, if any — on a decode failure the `?` returns from the enclosing
function, with the puts of the earlier records already buffered. -/
def restoreLoopFuel : Nat → List Nat → List Entry × Option StorageError
  | _, [] => ([], none)
  | 0, _ :: _ => ([], none)
  | fuel + 1, b :: rest =>
    let chunk := (b :: rest).takeWhile (· ≠ 59)
    let found := (b :: rest).dropWhile (· ≠ 59)
    let buf := if found.isEmpty then chunk.dropLast else chunk
    let next := if found.isEmpty then [] else found.tail
    let tailResult :=
      match splitFirstComma? buf with
      | none => restoreLoopFuel fuel next
      | some (kpart, vpart) =>
        match hexDecode? kpart, hexDecode? vpart with
        | some k, some v =>
          ((k, v) :: (restoreLoopFuel fuel next).1, (restoreLoopFuel fuel next).2)
        | _, _ => ([], some .ConversionError)
    tailResult

/-- Each chunk consumes at least one byte of the stream. -/
theorem restoreNext_length (b : Nat) (rest : List Nat) :
    (if ((b :: rest).dropWhile (· ≠ 59)).isEmpty then []
      else ((b :: rest).dropWhile (· ≠ 59)).tail).length < (b :: rest).length := by
  split
  · simp
  · exact dropWhileTailLen _ b rest

/-- Any sufficient fuel computes the same restore loop. -/
theorem restoreLoopFuel_congr :
    ∀ (f1 f2 : Nat) (bs : List Nat), bs.length ≤ f1 → bs.length ≤ f2 →
      restoreLoopFuel f1 bs = restoreLoopFuel f2 bs := by
  intro f1
  induction f1 with
  | zero =>
    intro f2 bs h1 h2
    have : bs = [] := List.eq_nil_of_length_eq_zero (by omega)
    subst this
    cases f2 <;> rfl
  | succ f1 ih =>
    intro f2 bs h1 h2
    cases bs with
    | nil => cases f2 <;> rfl
    | cons b rest =>
      cases f2 with
      | zero => simp at h2
      | succ f2 =>
        rw [restoreLoopFuel, restoreLoopFuel]
        have hn := restoreNext_length b rest
        simp only [List.length_cons] at hn h1 h2
        simp only [ih f2 (if ((b :: rest).dropWhile (· ≠ 59)).isEmpty then []
          else ((b :: rest).dropWhile (· ≠ 59)).tail) (by omega) (by omega)]

/-- The restore record loop over a whole stream: the puts issued and the
first error, if one aborted it (either decode failure of a record is a
`ConversionError`). -/
def restoreLoop (stream : List Nat) : List Entry × Option StorageError :=
  restoreLoopFuel stream.length stream

/-- One step of the restore loop. -/
theorem restoreLoop_step (b : Nat) (rest : List Nat) :
    restoreLoop (b :: rest) =
      (let chunk := (b :: rest).takeWhile (· ≠ 59)
       let found := (b :: rest).dropWhile (· ≠ 59)
       let buf := if found.isEmpty then chunk.dropLast else chunk
       let next := if found.isEmpty then [] else found.tail
       match splitFirstComma? buf with
       | none => restoreLoop next
       | some (kpart, vpart) =>
         match hexDecode? kpart, hexDecode? vpart with
         | some k, some v => ((k, v) :: (restoreLoop next).1, (restoreLoop next).2)
         | _, _ => ([], some .ConversionError)) := by
  rw [restoreLoop, List.length_cons, restoreLoopFuel]
  have hn := restoreNext_length b rest
  simp only [List.length_cons] at hn
  simp only [restoreLoop]
  simp only [restoreLoopFuel_congr rest.length
    (if ((b :: rest).dropWhile (· ≠ 59)).isEmpty then []
      else ((b :: rest).dropWhile (· ≠ 59)).tail).length
    (if ((b :: rest).dropWhile (· ≠ 59)).isEmpty then []
      else ((b :: rest).dropWhile (· ≠ 59)).tail) (by omega) (by omega)]

/-- The fallible body of `Storage::restore_backup` (everything inside the
`result` block): unwrap the backup DEK from the sidecar with the given
password, open the decrypting reader over the backup file, and run the
record loop.  Yields the puts issued on the restore transaction and the
error that aborted the body, if any. -/
def restoreResult (sidecar : List Nat) (file : BackupFile) (password : String) :
    List Entry × Option StorageError :=
  match cocoonParse (utf8Encode password) sidecar with
  | none => ([], some .WrongPassword)
  | some dek =>
    if file.1 = dek then restoreLoop file.2 else ([], some .IoError)

/-- `Storage::restore_backup`: begin a transaction (fresh handle `h`
passed in) and run the fallible body, issuing its puts on that
transaction.  The `result` block of the source is a plain block, so
every `?` inside it returns from `restore_backup` itself: on a failure
the function exits with that error BEFORE the `if result.is_err()`
rollback (which is dead code — when control reaches it, `result` is
always `Ok`), leaving the live transaction and its buffered puts in the
registry.  On success the transaction is committed. -/
def Storage.restore_backup (s : Storage) (sidecar : List Nat) (file : BackupFile)
    (password : String) (h : Nat) : Storage × Except StorageError Unit :=
  let s1 := s.begin_transaction h
  let body := restoreResult sidecar file password
  let s2 :=
    { s1 with
      transactions := (h, body.1.map (fun e : Entry => TxOp.put e.1 e.2)) :: s.transactions }
  match body.2 with
  | some e => (s2, .error e)
  | none => ((s2.commit_transaction h).1, (s2.commit_transaction h).2)

/-! Basic facts about the byte order and the prefix test. -/

/-- `bytesLt` is irreflexive. -/
theorem bytesLt_irrefl (l : List Nat) : bytesLt l l = false := by
  induction l with
  | nil => rfl
  | cons a l ih => simp [bytesLt, ih]

/-- `bytesLt` is transitive. -/
theorem bytesLt_trans {x y z : List Nat} (h1 : bytesLt x y = true)
    (h2 : bytesLt y z = true) : bytesLt x z = true := by
  induction x generalizing y z with
  | nil =>
    cases y with
    | nil => simp [bytesLt] at h1
    | cons b bs =>
      cases z with
      | nil => simp [bytesLt] at h2
      | cons c cs => simp [bytesLt]
  | cons a as ih =>
    cases y with
    | nil => simp [bytesLt] at h1
    | cons b bs =>
      cases z with
      | nil => simp [bytesLt] at h2
      | cons c cs =>
        simp [bytesLt] at h1 h2 ⊢
        rcases h1 with h1 | ⟨rfl, h1⟩
        · rcases h2 with h2 | ⟨rfl, h2⟩
          · exact Or.inl (Nat.lt_trans h1 h2)
          · exact Or.inl h1
        · rcases h2 with h2 | ⟨rfl, h2⟩
          · exact Or.inl h2
          · exact Or.inr ⟨rfl, ih h1 h2⟩

/-- `bytesLt` is asymmetric. -/
theorem bytesLt_asymm {x y : List Nat} (h : bytesLt x y = true) :
    bytesLt y x = false := by
  by_contra hc
  have hc' : bytesLt y x = true := by
    cases hxy : bytesLt y x
    · exact absurd hxy hc
    · rfl
  have := bytesLt_trans h hc'
  rw [bytesLt_irrefl] at this
  exact Bool.false_ne_true this

/-- A prefix of `k` is never strictly above `k` in the byte order. -/
theorem listPre_not_bytesLt {p k : List Nat} (h : listPre p k = true) :
    bytesLt k p = false := by
  induction p generalizing k with
  | nil => cases k <;> rfl
  | cons a as ih =>
    cases k with
    | nil => simp [listPre] at h
    | cons b bs =>
      simp [listPre] at h
      obtain ⟨rfl, h⟩ := h
      simp [bytesLt, ih h]

/-- Once the iteration has passed the prefix range, no later key matches:
if `k` is at or above `p` but does not start with `p`, then nothing
strictly above `k` starts with `p` either. -/
theorem listPre_stop {p k m : List Nat} (hge : bytesLt k p = false)
    (hnp : listPre p k = false) (hlt : bytesLt k m = true) :
    listPre p m = false := by
  induction p generalizing k m with
  | nil => simp [listPre] at hnp
  | cons a as ih =>
    cases k with
    | nil => simp [bytesLt] at hge
    | cons b bs =>
      cases m with
      | nil => simp [bytesLt] at hlt
      | cons c cs =>
        by_cases hac : a = c
        · subst hac
          simp only [listPre, beq_self_eq_true, Bool.true_and]
          simp [bytesLt] at hge hlt
          obtain ⟨hba, hba2⟩ := hge
          rcases hlt with hlt | ⟨rfl, hlt⟩
          · exfalso
            omega
          · simp [listPre] at hnp
            exact ih (hba2 rfl) hnp hlt
        · simp [listPre, hac]

/-- The prefix test as an existential. -/
theorem listPre_iff [BEq α] [LawfulBEq α] {p l : List α} :
    listPre p l = true ↔ ∃ t, l = p ++ t := by
  induction p generalizing l with
  | nil => simp [listPre]
  | cons a as ih =>
    cases l with
    | nil => simp [listPre]
    | cons b bs =>
      simp only [listPre, Bool.and_eq_true, beq_iff_eq, ih, List.cons_append,
        List.cons.injEq]
      constructor
      · rintro ⟨rfl, t, rfl⟩
        exact ⟨t, rfl, rfl⟩
      · rintro ⟨t, rfl, rfl⟩
        exact ⟨rfl, t, rfl⟩

/-! Engine lemmas. -/

/-- A key just put is read back with its new value. -/
theorem engineGet_put (db : EngineState) (k v : List Nat) :
    engineGet (enginePut db k v) k = some v := by
  induction db with
  | nil => simp [enginePut, engineGet]
  | cons e rest ih =>
    obtain ⟨k', v'⟩ := e
    rw [enginePut]
    split
    · simp [engineGet]
    · split
      · simp [engineGet]
      · rename_i hne
        simp [engineGet, hne, ih]

/-- A key just deleted is gone. -/
theorem engineGet_del (db : EngineState) (k : List Nat) :
    engineGet (engineDelete db k) k = none := by
  induction db with
  | nil => rfl
  | cons e rest ih =>
    rw [engineDelete, List.filter]
    split
    · rename_i hkeep
      simp at hkeep
      rw [engineGet]
      rw [if_neg (by simpa using Ne.symm hkeep)]
      exact ih
    · exact ih

/-! Registry lemmas. -/

/-- After a `HashMap::remove` of `h`, looking `h` up fails. -/
theorem lookupTx_removeTx (reg : List (Nat × List TxOp)) (h : Nat) :
    lookupTx (removeTx reg h) h = none := by
  induction reg with
  | nil => rfl
  | cons e rest ih =>
    obtain ⟨h', ops⟩ := e
    rw [removeTx, List.filter]
    split
    · rename_i hkeep
      simp at hkeep
      rw [lookupTx, if_neg (Ne.symm hkeep)]
      exact ih
    · exact ih

/-- Removing an absent handle does nothing. -/
theorem removeTx_of_not_mem {reg : List (Nat × List TxOp)} {h : Nat}
    (hf : lookupTx reg h = none) : removeTx reg h = reg := by
  induction reg with
  | nil => rfl
  | cons e rest ih =>
    obtain ⟨h', ops⟩ := e
    rw [lookupTx] at hf
    split at hf
    · exact absurd hf (by simp)
    · rename_i hne
      simp only [removeTx, List.filter_cons] at ih ⊢
      rw [if_pos (by simpa using Ne.symm hne)]
      rw [ih hf]

/-- The wrap/parse contract of the envelope crypto: parsing with the same
key recovers the payload. -/
theorem cocoonParse_dump (key data : List Nat) :
    cocoonParse key (cocoonDump key data) = some data := by
  rw [cocoonDump, cocoonParse]
  rw [if_pos ⟨rfl, List.take_left key data⟩]
  rw [List.drop_left key data]

/-! Correctness of the UTF-8 codec on encoded data. -/

/-- A character's encoding is never empty. -/
theorem utf8EncodeChar_ne_nil (c : Char) : utf8EncodeChar c ≠ [] := by
  rw [utf8EncodeChar]
  split_ifs <;> simp

/-- Decoding one character from an encoded character followed by anything
recovers the code point and the remainder. -/
theorem utf8DecodeChar_encodeChar (c : Char) (rest : List Nat) :
    utf8DecodeChar? (utf8EncodeChar c ++ rest) = some (c.toNat, rest) := by
  have hv : c.toNat < 55296 ∨ (57343 < c.toNat ∧ c.toNat < 1114112) := c.valid
  rw [utf8EncodeChar]
  by_cases h1 : c.toNat < 128
  · rw [if_pos h1]
    rw [List.cons_append, List.nil_append]
    rw [utf8DecodeChar?, if_pos h1]
  · rw [if_neg h1]
    by_cases h2 : c.toNat < 2048
    · rw [if_pos h2]
      rw [List.cons_append, List.cons_append, List.nil_append]
      rw [utf8DecodeChar?]
      rw [if_neg (by omega), if_neg (by omega), if_pos (by omega)]
      rw [dec2]
      rw [if_pos (by constructor <;> omega)]
      have hp : pt2 (192 + c.toNat / 64) (128 + c.toNat % 64) = c.toNat := by
        rw [pt2]
        omega
      rw [hp]
    · rw [if_neg h2]
      by_cases h3 : c.toNat < 65536
      · rw [if_pos h3]
        rw [List.cons_append, List.cons_append, List.cons_append, List.nil_append]
        rw [utf8DecodeChar?]
        rw [if_neg (by omega), if_neg (by omega), if_neg (by omega), if_pos (by omega)]
        rw [dec3]
        have hp : pt3 (224 + c.toNat / 4096) (128 + c.toNat / 64 % 64)
            (128 + c.toNat % 64) = c.toNat := by
          rw [pt3]
          omega
        rw [if_pos ⟨⟨by omega, by omega⟩, ⟨by omega, by omega⟩,
          by rw [hp]; omega, by rw [hp]; omega⟩]
        rw [hp]
      · rw [if_neg h3]
        rw [List.cons_append, List.cons_append, List.cons_append, List.cons_append,
          List.nil_append]
        rw [utf8DecodeChar?]
        rw [if_neg (by omega), if_neg (by omega), if_neg (by omega), if_neg (by omega),
          if_pos (by omega)]
        rw [dec4]
        have hp : pt4 (240 + c.toNat / 262144) (128 + c.toNat / 4096 % 64)
            (128 + c.toNat / 64 % 64) (128 + c.toNat % 64) = c.toNat := by
          rw [pt4]
          omega
        rw [if_pos ⟨⟨by omega, by omega⟩, ⟨by omega, by omega⟩, ⟨by omega, by omega⟩,
          by rw [hp]; omega, by rw [hp]; omega⟩]
        rw [hp]

/-- Decoding an encoded character followed by anything decodes the
character then the remainder. -/
theorem utf8Decode_encodeChar (c : Char) (rest : List Nat) :
    utf8Decode? (utf8EncodeChar c ++ rest) = (utf8Decode? rest).map (c.toNat :: ·) := by
  have henc := utf8DecodeChar_encodeChar c rest
  cases he : utf8EncodeChar c with
  | nil => exact absurd he (utf8EncodeChar_ne_nil c)
  | cons b bs =>
    rw [he] at henc
    rw [List.cons_append] at henc
    rw [List.cons_append]
    rw [utf8Decode_step]
    simp only [henc]

/-- Full decode of an encoded character list. -/
theorem utf8Decode_encode_chars (cs : List Char) :
    utf8Decode? (cs.flatMap utf8EncodeChar) = some (cs.map Char.toNat) := by
  induction cs with
  | nil => rfl
  | cons c cs ih =>
    rw [List.flatMap_cons, utf8Decode_encodeChar, ih]
    rfl

/-- `String::from_utf8` inverts `as_bytes`: the model of the plaintext
read path recovers exactly the string that was written. -/
theorem strDecode_encode (s : String) : strDecode? (utf8Encode s) = some s := by
  rw [strDecode?, utf8Encode, utf8Decode_encode_chars]
  simp only [Option.map_some', List.map_map, Option.some.injEq]
  have hcomp : (Char.ofNat ∘ Char.toNat) = id := funext Char.ofNat_toNat
  rw [hcomp, List.map_id]

/-- The UTF-8 encoding of a string determines the string. -/
theorem utf8Encode_inj {s t : String} (h : utf8Encode s = utf8Encode t) : s = t := by
  have h1 := strDecode_encode s
  rw [h, strDecode_encode t] at h1
  simpa using h1.symm

/-- `Char.toNat` is injective. -/
theorem charToNat_inj {c d : Char} (h : c.toNat = d.toNat) : c = d := by
  rw [← Char.ofNat_toNat c, h, Char.ofNat_toNat]

/-- UTF-8 per-character encodings are prefix-free: equal streams decompose
at the first character. -/
theorem encodeChar_append_inj {c d : Char} {r1 r2 : List Nat}
    (h : utf8EncodeChar c ++ r1 = utf8EncodeChar d ++ r2) : c = d ∧ r1 = r2 := by
  have h1 := utf8DecodeChar_encodeChar c r1
  rw [h, utf8DecodeChar_encodeChar d r2] at h1
  simp only [Option.some.injEq, Prod.mk.injEq] at h1
  exact ⟨charToNat_inj h1.1.symm, h1.2.symm⟩

/-- Dropping an equal left part preserves the prefix test. -/
theorem listPre_append_left [BEq α] [LawfulBEq α] (x a b : List α) :
    listPre (x ++ a) (x ++ b) = listPre a b := by
  induction x with
  | nil => rfl
  | cons h x ih => simp [listPre, ih]

/-- The string prefix test (`str::starts_with`) agrees with the byte
prefix test on the UTF-8 encodings. -/
theorem listPre_encode_chars (ps ss : List Char) :
    listPre (ps.flatMap utf8EncodeChar) (ss.flatMap utf8EncodeChar) =
      listPre ps ss := by
  induction ps generalizing ss with
  | nil => rfl
  | cons c ps ih =>
    cases ss with
    | nil =>
      rw [List.flatMap_cons, List.flatMap_nil]
      cases he : utf8EncodeChar c with
      | nil => exact absurd he (utf8EncodeChar_ne_nil c)
      | cons b bs => rfl
    | cons d ss =>
      rw [List.flatMap_cons, List.flatMap_cons]
      by_cases hcd : c = d
      · subst hcd
        rw [listPre_append_left, ih]
        simp [listPre]
      · have hL : listPre (utf8EncodeChar c ++ ps.flatMap utf8EncodeChar)
            (utf8EncodeChar d ++ ss.flatMap utf8EncodeChar) = false := by
          rw [← Bool.not_eq_true, listPre_iff]
          rintro ⟨t, ht⟩
          rw [List.append_assoc] at ht
          exact hcd (encodeChar_append_inj ht.symm).1
        rw [hL]
        simp [listPre, hcd]

/-- Byte-level and character-level prefix tests agree for strings. -/
theorem listPre_encode (p k : String) :
    listPre (utf8Encode p) (utf8Encode k) = listPre p.data k.data :=
  listPre_encode_chars p.data k.data

/-! Hexadecimal codec facts. -/

/-- Every emitted hex digit is an ASCII digit or lowercase letter; in
particular it is neither `,` (44) nor `;` (59). -/
theorem hexDigit_range (n : Nat) :
    (48 ≤ hexDigit n ∧ hexDigit n ≤ 57) ∨ 97 ≤ hexDigit n := by
  rw [hexDigit]
  split_ifs <;> omega

/-- The record separators never occur inside a hex-encoded field. -/
theorem hexEncode_no_sep {bs : List Nat} {x : Nat} (hx : x ∈ hexEncode bs) :
    x ≠ 44 ∧ x ≠ 59 := by
  rw [hexEncode] at hx
  simp only [List.mem_flatMap, List.mem_cons, List.not_mem_nil, or_false] at hx
  obtain ⟨b, -, hx | hx⟩ := hx
  · subst hx
    have h := hexDigit_range (b / 16)
    constructor <;> omega
  · subst hx
    have h := hexDigit_range (b % 16)
    constructor <;> omega

/-- Reading back an emitted hex digit. -/
theorem hexVal_hexDigit {n : Nat} (h : n < 16) : hexVal? (hexDigit n) = some n := by
  rw [hexDigit]
  split_ifs with h1
  · rw [hexVal?, if_pos (by omega)]
    congr 1
    omega
  · rw [hexVal?, if_neg (by omega), if_pos (by omega)]
    congr 1
    omega

/-- `hex::decode` inverts `hex::encode` on well-formed byte strings. -/
theorem hexDecode_encode {bs : List Nat} (h : bytesWf bs = true) :
    hexDecode? (hexEncode bs) = some bs := by
  induction bs with
  | nil => rfl
  | cons b bs ih =>
    rw [bytesWf] at h ih
    simp only [List.all_cons, Bool.and_eq_true, decide_eq_true_eq] at h
    rw [hexEncode, List.flatMap_cons]
    rw [List.cons_append, List.cons_append, List.nil_append]
    rw [hexDecode?]
    rw [hexVal_hexDigit (by omega), hexVal_hexDigit (by omega)]
    rw [hexEncode] at ih
    rw [ih h.2]
    have hb : 16 * (b / 16) + b % 16 = b := by omega
    simp [hb]

/-! Scanning over concatenations. -/

/-- `takeWhile` passes over a block that satisfies the predicate. -/
theorem takeWhile_app_all {p : α → Bool} {l : List α} (r : List α)
    (h : ∀ a ∈ l, p a = true) : (l ++ r).takeWhile p = l ++ r.takeWhile p := by
  induction l with
  | nil => rfl
  | cons a l ih =>
    rw [List.cons_append, List.takeWhile_cons, if_pos (h a (by simp))]
    rw [List.cons_append, ih (fun a ha => h a (by simp [ha]))]

/-- `dropWhile` passes over a block that satisfies the predicate. -/
theorem dropWhile_app_all {p : α → Bool} {l : List α} (r : List α)
    (h : ∀ a ∈ l, p a = true) : (l ++ r).dropWhile p = r.dropWhile p := by
  induction l with
  | nil => rfl
  | cons a l ih =>
    rw [List.cons_append, List.dropWhile_cons, if_pos (h a (by simp))]
    exact ih (fun a ha => h a (by simp [ha]))

/-! Sortedness of engine states. -/

/-- The tail of a sorted state is sorted. -/
theorem sorted_tail {a : Entry} {l : EngineState}
    (h : sortedKeysB (a :: l) = true) : sortedKeysB l = true := by
  cases l with
  | nil => rfl
  | cons b rest =>
    rw [sortedKeysB] at h
    simp only [Bool.and_eq_true] at h
    exact h.2

/-- In a sorted state, the head key is strictly below every later key. -/
theorem sorted_head_lt {a : Entry} {l : EngineState}
    (h : sortedKeysB (a :: l) = true) : ∀ e ∈ l, bytesLt a.1 e.1 = true := by
  induction l generalizing a with
  | nil => simp
  | cons b rest ih =>
    intro e he
    have hab : bytesLt a.1 b.1 = true := by
      rw [sortedKeysB] at h
      simp only [Bool.and_eq_true] at h
      exact h.1
    rcases List.mem_cons.mp he with rfl | he'
    · exact hab
    · exact bytesLt_trans hab (ih (sorted_tail h) e he')

/-- A sorted state stays sorted after dropping a front segment. -/
theorem sorted_dropWhile {l : EngineState} (p : Entry → Bool)
    (h : sortedKeysB l = true) : sortedKeysB (l.dropWhile p) = true := by
  induction l with
  | nil => rfl
  | cons a l ih =>
    rw [List.dropWhile_cons]
    split
    · exact ih (sorted_tail h)
    · exact h

/-- Keys surviving `dropWhile (· < p)` on a sorted state are all at or
above `p`. -/
theorem sorted_dropWhile_ge {l : EngineState} {pb : List Nat}
    (h : sortedKeysB l = true) :
    ∀ e ∈ l.dropWhile (fun e => bytesLt e.1 pb), bytesLt e.1 pb = false := by
  induction l with
  | nil => simp
  | cons a l ih =>
    rw [List.dropWhile_cons]
    split
    · exact ih (sorted_tail h)
    · rename_i ha
      intro e he
      rcases List.mem_cons.mp he with rfl | he'
      · exact Bool.not_eq_true _ ▸ ha
      · cases hx : bytesLt e.1 pb
        · rfl
        · exfalso
          have hae := sorted_head_lt h e he'
          have : bytesLt a.1 pb = true := bytesLt_trans hae hx
          simp [this] at ha

/-- Putting a key above the whole state appends it at the end. -/
theorem enginePut_append {db : EngineState} {k : List Nat} (v : List Nat)
    (h : ∀ e ∈ db, bytesLt e.1 k = true) : enginePut db k v = db ++ [(k, v)] := by
  induction db with
  | nil => rfl
  | cons e rest ih =>
    obtain ⟨k', v'⟩ := e
    have hk' : bytesLt k' k = true := h (k', v') (by simp)
    rw [enginePut]
    rw [if_neg (by simp [bytesLt_asymm hk'])]
    rw [if_neg (by rintro rfl; simp [bytesLt_irrefl] at hk')]
    rw [ih (fun e he => h e (by simp [he]))]
    rfl

/-- In a sorted split `acc ++ e :: l`, every accumulated key is below the
key of `e`. -/
theorem sorted_append_mid {acc l : EngineState} {e : Entry}
    (h : sortedKeysB (acc ++ e :: l) = true) :
    ∀ f ∈ acc, bytesLt f.1 e.1 = true := by
  induction acc with
  | nil => simp
  | cons a acc ih =>
    intro f hf
    rcases List.mem_cons.mp hf with rfl | hf'
    · exact sorted_head_lt h e (by simp)
    · exact ih (sorted_tail h) f hf'

/-- Committing the puts of a sorted record list onto a prefix it extends
rebuilds exactly the concatenation. -/
theorem applyOps_puts (l : List Entry) (acc : EngineState)
    (h : sortedKeysB (acc ++ l) = true) :
    applyOps acc (l.map (fun e : Entry => TxOp.put e.1 e.2)) = acc ++ l := by
  induction l generalizing acc with
  | nil => simp [applyOps]
  | cons e l ih =>
    rw [List.map_cons, applyOps, List.foldl_cons]
    have hput : applyOp acc (TxOp.put e.1 e.2) = acc ++ [e] := by
      rw [applyOp, enginePut_append e.2 (sorted_append_mid h)]
    rw [hput]
    have h' : sortedKeysB ((acc ++ [e]) ++ l) = true := by
      rw [List.append_assoc, List.singleton_append]
      exact h
    have := ih (acc ++ [e]) h'
    rw [applyOps] at this
    rw [this, List.append_assoc, List.singleton_append]

/-- restoreLoop on the empty stream. -/
theorem restoreLoop_nil : restoreLoop [] = ([], none) := rfl

/-- Processing one delimiter-free chunk followed by `;` and the rest. -/
theorem restoreLoop_chunk (A rest : List Nat) (h59 : ∀ a ∈ A, a ≠ 59) :
    restoreLoop (A ++ 59 :: rest) =
      (match splitFirstComma? A with
       | none => restoreLoop rest
       | some (kpart, vpart) =>
         match hexDecode? kpart, hexDecode? vpart with
         | some k, some v => ((k, v) :: (restoreLoop rest).1, (restoreLoop rest).2)
         | _, _ => ([], some .ConversionError)) := by
  have hA : ∀ a ∈ A, (fun x => decide (x ≠ 59)) a = true := by
    intro a ha
    simpa using h59 a ha
  cases A with
  | nil =>
    rw [List.nil_append, restoreLoop_step]
    simp [splitFirstComma?]
  | cons a A' =>
    have hc : (a :: (A' ++ 59 :: rest)).takeWhile (fun x => decide (x ≠ 59)) =
        a :: A' := by
      rw [← List.cons_append]
      rw [takeWhile_app_all _ hA]
      simp
    have hd : (a :: (A' ++ 59 :: rest)).dropWhile (fun x => decide (x ≠ 59)) =
        59 :: rest := by
      rw [← List.cons_append]
      rw [dropWhile_app_all _ hA]
      simp
    rw [List.cons_append, restoreLoop_step]
    simp only [hc, hd, List.isEmpty_cons, List.tail_cons, if_neg Bool.false_ne_true]



/-- A record with no comma is silently skipped. -/
theorem restoreLoop_skip (r rest : List Nat) (h44 : 44 ∉ r) (h59 : 59 ∉ r) :
    restoreLoop (r ++ 59 :: rest) = restoreLoop rest := by
  rw [restoreLoop_chunk r rest (fun a ha => by rintro rfl; exact h59 ha)]
  rw [splitFirstComma?, if_neg h44]

/-- One serialized record is parsed back to its pair, put first. -/
theorem restoreLoop_record (k v : List Nat) (rest : List Nat)
    (hk : bytesWf k = true) (hv : bytesWf v = true) :
    restoreLoop (recordBytes (k, v) ++ rest) =
      ((k, v) :: (restoreLoop rest).1, (restoreLoop rest).2) := by
  have h59 : ∀ a ∈ hexEncode k ++ 44 :: hexEncode v, a ≠ 59 := by
    intro a ha
    rcases List.mem_append.mp ha with ha | ha
    · exact (hexEncode_no_sep ha).2
    · rcases List.mem_cons.mp ha with rfl | ha
      · omega
      · exact (hexEncode_no_sep ha).2
  have hrec : recordBytes (k, v) ++ rest =
      (hexEncode k ++ 44 :: hexEncode v) ++ 59 :: rest := by
    rw [recordBytes]
    simp
  rw [hrec, restoreLoop_chunk _ rest h59]
  have hsplit : splitFirstComma? (hexEncode k ++ 44 :: hexEncode v) =
      some (hexEncode k, hexEncode v) := by
    rw [splitFirstComma?]
    rw [if_pos (by simp)]
    have h44 : ∀ a ∈ hexEncode k, (fun x => decide (x ≠ 44)) a = true := by
      intro a ha
      simpa using (hexEncode_no_sep ha).1
    rw [takeWhile_app_all _ h44, dropWhile_app_all _ h44]
    simp
  rw [hsplit]
  simp only [hexDecode_encode hk, hexDecode_encode hv]

/-- The restore loop inverts the backup serialization. -/
theorem restoreLoop_flatMap (db : EngineState) (hw : engineWf db = true) :
    restoreLoop (db.flatMap recordBytes) = (db, none) := by
  induction db with
  | nil => exact restoreLoop_nil
  | cons e db ih =>
    rw [engineWf, List.all_cons, Bool.and_eq_true] at hw
    obtain ⟨he, hw'⟩ := hw
    rw [Bool.and_eq_true] at he
    rw [List.flatMap_cons]
    obtain ⟨k, v⟩ := e
    rw [restoreLoop_record k v _ he.1 he.2]
    rw [ih hw']



/-- The flushed batches concatenate to exactly the batched input: every
snapshot pair reaches the stream exactly once. -/
theorem backupBatchesAux_flatten (l : List Entry) :
    ∀ (vec : List Entry) (n : Nat), (backupBatchesAux l vec n).flatten = vec ++ l := by
  induction l with
  | nil =>
    intro vec n
    rw [backupBatchesAux]
    split
    · rename_i hv
      rw [List.isEmpty_iff] at hv
      simp [hv]
    · simp
  | cons e l ih =>
    intro vec n
    rw [backupBatchesAux]
    split
    · rw [List.flatten_cons, ih [] 0]
      simp
    · rw [ih (vec ++ [e]) (n + 1)]
      simp

/-- Top-level form of the previous lemma. -/
theorem backupBatches_flatten (l : List Entry) : (backupBatches l).flatten = l := by
  rw [backupBatches, backupBatchesAux_flatten]
  rfl

/-- Size discipline of the batching loop: every flushed batch is non-empty
with at most 1001 records, and every batch except the final one has
exactly 1001 records. -/
theorem backupBatchesAux_sizes (l : List Entry) :
    ∀ (vec : List Entry) (n : Nat), n = vec.length → n ≤ 1000 →
      (∀ b ∈ backupBatchesAux l vec n, b ≠ [] ∧ b.length ≤ 1001) ∧
      (∀ b ∈ (backupBatchesAux l vec n).dropLast, b.length = 1001) := by
  induction l with
  | nil =>
    intro vec n hn hle
    rw [backupBatchesAux]
    split
    · simp
    · rename_i hv
      constructor
      · intro b hb
        rw [List.mem_singleton] at hb
        subst hb
        constructor
        · intro hbe
          rw [hbe] at hv
          simp at hv
        · omega
      · simp
  | cons e l ih =>
    intro vec n hn hle
    rw [backupBatchesAux]
    split
    · rename_i h1000
      obtain ⟨ihall, ihlast⟩ := ih [] 0 rfl (by omega)
      constructor
      · intro b hb
        rcases List.mem_cons.mp hb with rfl | hb'
        · constructor
          · simp
          · simp
            omega
        · exact ihall b hb'
      · intro b hb
        cases hx : backupBatchesAux l [] 0 with
        | nil =>
          rw [hx] at hb
          simp at hb
        | cons y ys =>
          rw [hx] at hb
          rw [show ((vec ++ [e]) :: y :: ys).dropLast =
            (vec ++ [e]) :: (y :: ys).dropLast from rfl] at hb
          rcases List.mem_cons.mp hb with rfl | hb'
          · simp
            omega
          · rw [← hx] at hb'
            exact ihlast b hb'
    · rename_i h1000
      exact ih (vec ++ [e]) (n + 1) (by simp; omega) (by omega)

/-- Top-level form of the size discipline. -/
theorem backupBatches_sizes (l : List Entry) :
    (∀ b ∈ backupBatches l, b ≠ [] ∧ b.length ≤ 1001) ∧
      (∀ b ∈ (backupBatches l).dropLast, b.length = 1001) :=
  backupBatchesAux_sizes l [] 0 rfl (by omega)

/-- Flatten commutes with per-block flatMap. -/
theorem flatten_map_flatMap (f : α → List β) (bs : List (List α)) :
    (bs.map (fun b => b.flatMap f)).flatten = bs.flatten.flatMap f := by
  induction bs with
  | nil => rfl
  | cons b bs ih =>
    simp [ih]

/-- The backup stream payload is the concatenation of the serialized
records, one per snapshot pair. -/
theorem backupStream_eq (db : EngineState) :
    backupStream db = db.flatMap recordBytes := by
  rw [backupStream]
  rw [show (backupBatches db).map serializeBatch =
    (backupBatches db).map (fun b => b.flatMap recordBytes) from rfl]
  rw [flatten_map_flatMap, backupBatches_flatten]

/-- Modelled from the spec's words (for the C9 comparison): the same
policy predicate but with the length counted in characters instead of
bytes. -/
def is_valid_charlen (pol : PasswordPolicy) (password : String) : Bool :=
  decide (password.data.length ≥ pol.min_length) &&
  decide ((password.data.filter (fun c => SPECIAL.contains c)).length ≥
    pol.min_number_of_special_chars) &&
  decide ((password.data.filter (fun c => UPPERCASE.contains c)).length ≥
    pol.min_number_of_uppercase) &&
  decide ((password.data.filter (fun c => DIGITS.contains c)).length ≥
    pol.min_number_of_digits)

/-- C9 counterexample: under policy `{min_length := 2}` the one-character,
two-byte password `"é"` is accepted by the source (`password.len()` counts
UTF-8 bytes), while the claim's character-counted reading rejects it. -/
theorem c9_counterexample :
    PasswordPolicy.is_valid ⟨2, 0, 0, 0⟩ "é" = true ∧
      is_valid_charlen ⟨2, 0, 0, 0⟩ "é" = false ∧ "é".data.length = 1 := by
  decide

/-- C1: the reserved DEK key is NOT skipped: opening a fresh database
with a password (permissive test policy) leaves exactly the reserved
entry in the engine, and both `keys()` and `partial_compare_keys("")`
return a list containing the string `"DEK"`. -/
theorem c1_dek_key_leaks :
    (open_db [] (some "password") (some ⟨1, 0, 0, 0⟩) [1, 2, 3]).map
        (fun s => (s.keys, s.partial_compare_keys "")) =
      .ok (.ok ["DEK"], .ok ["DEK"]) ∧ "DEK" ∈ ["DEK"] := by
  decide

/-- C3 counterexample: an existing database holding the DEK wrapped under
the correct passphrase `"password"`, opened with that same passphrase
under the default policy, fails with `WeakPassword` — the policy IS
re-checked on open. -/
theorem c3_counterexample :
    open_db [(dekKeyBytes, cocoonDump (utf8Encode "password") [1, 2, 3])]
      (some "password") none [9, 9] =
      .error (.WeakPassword PasswordPolicy.default) := by
  decide

/-- C3 (amended): on every open that supplies a password — including an
existing database whose wrapped DEK parses under that same passphrase —
the policy is checked first: the open fails with `WeakPassword` exactly
when the passphrase violates the effective policy, and otherwise
succeeds with the unwrapped DEK resident. -/
theorem c3_policy_checked_on_every_open (db : EngineState) (pw : String)
    (polC : Option PasswordPolicy) (dek fresh : List Nat)
    (hdek : engineGet db dekKeyBytes = some (cocoonDump (utf8Encode pw) dek)) :
    open_db db (some pw) polC fresh =
      if (polC.getD PasswordPolicy.default).is_valid pw then
        .ok ⟨db, [], some dek, polC.getD PasswordPolicy.default⟩
      else .error (.WeakPassword (polC.getD PasswordPolicy.default)) := by
  simp only [open_db, hdek, cocoonParse_dump]
  by_cases h : (polC.getD PasswordPolicy.default).is_valid pw = true
  · rw [if_neg (by simp [h]), if_pos h]
  · rw [if_pos (by simpa using h), if_neg h]

/-- Witness for the amended C3 at a concrete strong password. -/
theorem c3_witness :
    open_db [(dekKeyBytes, cocoonDump (utf8Encode "ABC!123#xy$z") [5])]
        (some "ABC!123#xy$z") none [9] =
      if (PasswordPolicy.default).is_valid "ABC!123#xy$z" then
        .ok ⟨[(dekKeyBytes, cocoonDump (utf8Encode "ABC!123#xy$z") [5])], [],
          some [5], PasswordPolicy.default⟩
      else .error (.WeakPassword PasswordPolicy.default) :=
  c3_policy_checked_on_every_open _ "ABC!123#xy$z" none [5] [9] (by decide)



set_option maxRecDepth 100000 in
/-- C4 counterexample: with 1002 snapshot records the loop writes a first
batch of 1001 records (not 1000) and then a final partial batch of 1. -/
theorem c4_counterexample :
    (backupBatches (List.replicate 1002 (([], []) : Entry))).map List.length =
      [1001, 1] := by
  decide

/-- C4 (amended): every batch the backup loop passes to the encrypted
writer is non-empty with at most 1001 records, every batch except the
final one holds exactly 1001 records, the batches concatenate to the
snapshot items in order, and the stream payload is the concatenation of
one serialized record per snapshot pair — so every pair appears in the
stream exactly once. -/
theorem c4_batching (l : List Entry) :
    (backupBatches l).flatten = l ∧
      backupStream l = l.flatMap recordBytes ∧
      (∀ b ∈ backupBatches l, b ≠ [] ∧ b.length ≤ 1001) ∧
      (∀ b ∈ (backupBatches l).dropLast, b.length = 1001) :=
  ⟨backupBatches_flatten l, backupStream_eq l, (backupBatches_sizes l).1,
    (backupBatches_sizes l).2⟩

/-- Witness for the amended C4 at a concrete one-record snapshot. -/
theorem c4_witness :
    (backupBatches [(([1], [2]) : Entry)]).flatten = [(([1], [2]) : Entry)] ∧
      backupStream [(([1], [2]) : Entry)] =
        [(([1], [2]) : Entry)].flatMap recordBytes ∧
      (∀ b ∈ backupBatches [(([1], [2]) : Entry)], b ≠ [] ∧ b.length ≤ 1001) ∧
      (∀ b ∈ (backupBatches [(([1], [2]) : Entry)]).dropLast, b.length = 1001) :=
  c4_batching [([1], [2])]

/-- C10: a `;`-terminated record holding no `,` byte contributes no put
and raises no error: the restore loop simply continues with the rest of
the stream. -/
theorem c10_record_without_comma_skipped (r rest : List Nat)
    (h44 : 44 ∉ r) (h59 : 59 ∉ r) :
    restoreLoop (r ++ 59 :: rest) = restoreLoop rest :=
  restoreLoop_skip r rest h44 h59

/-- Witness for C10: the comma-less record `"gg"` is dropped while the
loop still returns success on the remaining well-formed stream. -/
theorem c10_witness :
    restoreLoop ([103, 103] ++ 59 :: backupStream [([2], [3])]) =
      ([([2], [3])], none) := by
  rw [c10_record_without_comma_skipped [103, 103] _ (by decide) (by decide)]
  decide



/-- After a commit the handle is no longer registered. -/
theorem lookupTx_after_commit (s : Storage) (h : Nat) :
    lookupTx ((s.commit_transaction h).1).transactions h = none := by
  cases hl : lookupTx s.transactions h with
  | none => simp only [Storage.commit_transaction, hl]
  | some ops => simp only [Storage.commit_transaction, hl]; exact lookupTx_removeTx _ _

/-- After a rollback the handle is no longer registered. -/
theorem lookupTx_after_rollback (s : Storage) (h : Nat) :
    lookupTx ((s.rollback_transaction h).1).transactions h = none := by
  cases hl : lookupTx s.transactions h with
  | none => simp only [Storage.rollback_transaction, hl]
  | some ops => simp only [Storage.rollback_transaction, hl]; exact lookupTx_removeTx _ _

/-- Every transactional operation on an unregistered handle fails with
`NotFound("Transaction")` and leaves the storage unchanged. -/
theorem txOps_fail (s : Storage) (h : Nat) (k v : String)
    (hl : lookupTx s.transactions h = none) :
    s.transactional_write k v h = (s, .error (.NotFound "Transaction")) ∧
    s.transactional_delete k h = (s, .error (.NotFound "Transaction")) ∧
    s.commit_transaction h = (s, .error (.NotFound "Transaction")) ∧
    s.rollback_transaction h = (s, .error (.NotFound "Transaction")) := by
  refine ⟨?_, ?_, ?_, ?_⟩
  · simp only [Storage.transactional_write, hl]
  · simp only [Storage.transactional_delete, hl]
  · simp only [Storage.commit_transaction, hl]
  · simp only [Storage.rollback_transaction, hl]

/-- C6: commit removes the handle from the registry and then applies the
buffered operations; rollback removes it without applying anything; and
once either has run, every subsequent `transactional_write`,
`transactional_delete`, `commit_transaction` or `rollback_transaction`
on the same handle fails with `NotFound("Transaction")` leaving the
state unchanged. -/
theorem c6_transaction_handle_lifecycle (s : Storage) (h : Nat) (k v : String) :
    (∀ ops, lookupTx s.transactions h = some ops →
      s.commit_transaction h =
        ({ s with transactions := removeTx s.transactions h, db := applyOps s.db ops },
          .ok ()) ∧
      s.rollback_transaction h =
        ({ s with transactions := removeTx s.transactions h }, .ok ())) ∧
    ((s.commit_transaction h).1.transactional_write k v h =
        ((s.commit_transaction h).1, .error (.NotFound "Transaction")) ∧
      (s.commit_transaction h).1.transactional_delete k h =
        ((s.commit_transaction h).1, .error (.NotFound "Transaction")) ∧
      (s.commit_transaction h).1.commit_transaction h =
        ((s.commit_transaction h).1, .error (.NotFound "Transaction")) ∧
      (s.commit_transaction h).1.rollback_transaction h =
        ((s.commit_transaction h).1, .error (.NotFound "Transaction"))) ∧
    ((s.rollback_transaction h).1.transactional_write k v h =
        ((s.rollback_transaction h).1, .error (.NotFound "Transaction")) ∧
      (s.rollback_transaction h).1.transactional_delete k h =
        ((s.rollback_transaction h).1, .error (.NotFound "Transaction")) ∧
      (s.rollback_transaction h).1.commit_transaction h =
        ((s.rollback_transaction h).1, .error (.NotFound "Transaction")) ∧
      (s.rollback_transaction h).1.rollback_transaction h =
        ((s.rollback_transaction h).1, .error (.NotFound "Transaction"))) := by
  refine ⟨?_, txOps_fail _ h k v (lookupTx_after_commit s h),
    txOps_fail _ h k v (lookupTx_after_rollback s h)⟩
  intro ops hops
  constructor
  · simp only [Storage.commit_transaction, hops]
  · simp only [Storage.rollback_transaction, hops]

/-- Witness for C6 at a concrete one-transaction storage. -/
theorem c6_witness :
    ((Storage.mk [] [(7, [])] none ⟨0, 0, 0, 0⟩).commit_transaction
        7).1.transactional_write "a" "b" 7 =
      (((Storage.mk [] [(7, [])] none ⟨0, 0, 0, 0⟩).commit_transaction 7).1,
        .error (.NotFound "Transaction")) :=
  (c6_transaction_handle_lifecycle (Storage.mk [] [(7, [])] none ⟨0, 0, 0, 0⟩)
    7 "a" "b").2.1.1



/-- C5 counterexample: a failing restore (empty sidecar, so the DEK
unwrap fails with `WrongPassword`) on an empty database with fresh
handle 7 surfaces the error and leaves the engine untouched, but the
restore transaction is NOT rolled back: the handle is still registered
after the call (every `?` in the `result` block returns from
`restore_backup` before the `if result.is_err()` rollback can run, so
that branch is dead code). -/
theorem c5_counterexample :
    (Storage.mk [] [] none ⟨0, 0, 0, 0⟩).restore_backup [] ([], []) "x" 7 =
      (Storage.mk [] [(7, [])] none ⟨0, 0, 0, 0⟩, .error .WrongPassword) ∧
      lookupTx [(7, [])] 7 = some [] := by
  constructor
  · rfl
  · decide

/-- C5 (amended): if the fallible body of `restore_backup` (backup-DEK
unwrap, stream open, record decode, or a put) fails with `e` after the
restore transaction has begun, the error returned to the caller is that
first failure and the engine contents are unchanged — the transaction
is never committed — but the transaction is not rolled back: the `?`
returns from the function before the rollback branch, so the handle
stays live in the registry with the puts buffered so far. -/
theorem c5_error_leaves_transaction (s : Storage) (sidecar : List Nat)
    (file : BackupFile) (pw : String) (h : Nat) (puts : List Entry)
    (e : StorageError)
    (herr : restoreResult sidecar file pw = (puts, some e)) :
    s.restore_backup sidecar file pw h =
      ({ s with transactions :=
          (h, puts.map (fun f : Entry => TxOp.put f.1 f.2)) :: s.transactions },
        .error e) := by
  simp only [Storage.restore_backup, herr, Storage.begin_transaction]

/-- Witness for the amended C5: the failing restore surfaces
`WrongPassword`, leaves the engine bytes unchanged, and keeps the (here
empty) transaction in the registry. -/
theorem c5_witness :
    (Storage.mk [] [] none ⟨0, 0, 0, 0⟩).restore_backup [] ([], []) "x" 0 =
      (Storage.mk [] [(0, [])] none ⟨0, 0, 0, 0⟩, .error .WrongPassword) :=
  c5_error_leaves_transaction (Storage.mk [] [] none ⟨0, 0, 0, 0⟩) [] ([], [])
    "x" 0 [] .WrongPassword (by decide)

/-- C7: in plaintext mode a write commits and the subsequent read returns
exactly the written string; a delete commits and the subsequent read
returns `None`. -/
theorem c7_plaintext_roundtrip (s : Storage) (k v : String)
    (hpw : s.password = none) :
    (s.write k v).2 = .ok () ∧ (s.delete k).2 = .ok () ∧
      (s.write k v).1.read k = .ok (some v) ∧
      (s.delete k).1.read k = .ok none := by
  refine ⟨rfl, rfl, ?_, ?_⟩
  · simp only [Storage.write, Storage.read, hpw, engineGet_put, strDecode_encode]
  · simp only [Storage.delete, Storage.read, hpw, engineGet_del]

/-- Witness for C7 on an empty plaintext database. -/
theorem c7_witness :
    ((Storage.mk [] [] none ⟨0, 0, 0, 0⟩).write "a" "b").1.read "a" =
      .ok (some "b") :=
  (c7_plaintext_roundtrip (Storage.mk [] [] none ⟨0, 0, 0, 0⟩) "a" "b" rfl).2.2.1



/-- C2: if `backup` succeeds on a database (policy-valid backup password,
fresh backup DEK), then restoring that backup into a freshly created
empty plaintext database succeeds and leaves its engine with exactly the
same entries — the same keys, each mapped to the byte-identical stored
value (encrypted envelopes included, since values travel as raw engine
bytes). -/
theorem c2_backup_restore_roundtrip (s : Storage) (pw : String)
    (bdek : List Nat) (pol2 : PasswordPolicy) (h : Nat) (sidecar : List Nat)
    (file : BackupFile) (hs : sortedKeysB s.db = true)
    (hw : engineWf s.db = true)
    (hb : s.backup pw bdek = .ok (sidecar, file)) :
    (Storage.mk [] [] none pol2).restore_backup sidecar file pw h =
      (Storage.mk s.db [] none pol2, .ok ()) := by
  rw [Storage.backup] at hb
  split_ifs at hb
  obtain ⟨rfl, rfl⟩ :
      cocoonDump (utf8Encode pw) bdek = sidecar ∧
        (bdek, backupStream s.db) = file := by
    simpa using hb
  have hres : restoreResult (cocoonDump (utf8Encode pw) bdek)
      (bdek, backupStream s.db) pw = (s.db, none) := by
    rw [restoreResult, cocoonParse_dump]
    show (if (bdek, backupStream s.db).1 = bdek then
        restoreLoop (bdek, backupStream s.db).2
      else ([], some StorageError.IoError)) = (s.db, none)
    rw [if_pos rfl]
    show restoreLoop (backupStream s.db) = (s.db, none)
    rw [backupStream_eq]
    exact restoreLoop_flatMap s.db hw
  have hlk : lookupTx [(h, s.db.map (fun e : Entry => TxOp.put e.1 e.2))] h =
      some (s.db.map (fun e : Entry => TxOp.put e.1 e.2)) := by
    rw [lookupTx, if_pos rfl]
  have happ : applyOps [] (s.db.map (fun e : Entry => TxOp.put e.1 e.2)) = s.db :=
    applyOps_puts s.db [] (by simpa using hs)
  have hrm : removeTx [(h, s.db.map (fun e : Entry => TxOp.put e.1 e.2))] h =
      [] := by
    rw [show removeTx [(h, s.db.map (fun e : Entry => TxOp.put e.1 e.2))] h =
      List.filter (fun e => decide (e.1 ≠ h))
        [(h, s.db.map (fun e : Entry => TxOp.put e.1 e.2))] from rfl]
    rw [List.filter_cons, if_neg (by simp)]
    rfl
  simp only [Storage.restore_backup, hres, Storage.begin_transaction,
    Storage.commit_transaction, hlk, happ, hrm]

/-- Witness for C2 on a concrete one-entry database. -/
theorem c2_witness :
    (Storage.mk [] [] none ⟨0, 0, 0, 0⟩).restore_backup [1, 120, 7]
        ([7], backupStream [([97], [98])]) "x" 0 =
      (Storage.mk [([97], [98])] [] none ⟨0, 0, 0, 0⟩, .ok ()) :=
  c2_backup_restore_roundtrip
    (Storage.mk [([97], [98])] [] none ⟨0, 0, 0, 0⟩) "x" [7] ⟨0, 0, 0, 0⟩ 0
    [1, 120, 7] ([7], backupStream [([97], [98])]) (by decide) (by decide)
    (by decide)



/-- Specification of the `partial_compare_keys` loop over the entries at
or above the prefix position: it succeeds, returns exactly the decoded
keys with the prefix, in ascending byte order, without duplicates. -/
theorem pckLoop_spec (p : String) (entries : List Entry)
    (hs : sortedKeysB entries = true)
    (hge : ∀ e ∈ entries, bytesLt e.1 (utf8Encode p) = false)
    (hk : ∀ e ∈ entries, ∃ q : String, e.1 = utf8Encode q) :
    ∃ l, pckLoop p entries = .ok l ∧
      l.map utf8Encode =
        (entries.map Prod.fst).filter (fun kb => listPre (utf8Encode p) kb) ∧
      l.Chain' (fun a b => bytesLt (utf8Encode a) (utf8Encode b) = true) ∧
      l.Nodup := by
  induction entries with
  | nil => exact ⟨[], rfl, rfl, List.chain'_nil, List.nodup_nil⟩
  | cons e rest ih =>
    obtain ⟨q, hq⟩ := hk e (by simp)
    have hdec : strDecode? e.1 = some q := by
      rw [hq]
      exact strDecode_encode q
    have hpre : listPre (utf8Encode p) e.1 = listPre p.data q.data := by
      rw [hq, listPre_encode]
    rw [pckLoop]
    simp only [hdec]
    by_cases hm : listPre p.data q.data = true
    · rw [if_pos hm]
      obtain ⟨l', hl', hmap, hchain, hnodup⟩ :=
        ih (sorted_tail hs) (fun f hf => hge f (by simp [hf]))
          (fun f hf => hk f (by simp [hf]))
      have hmem : ∀ x ∈ l', utf8Encode x ∈ rest.map Prod.fst := by
        intro x hx
        have : utf8Encode x ∈ l'.map utf8Encode := List.mem_map_of_mem _ hx
        rw [hmap] at this
        exact (List.mem_filter.mp this).1
      refine ⟨q :: l', by rw [hl']; rfl, ?_, ?_, ?_⟩
      · rw [List.map_cons, hmap]
        rw [List.map_cons, List.filter_cons]
        rw [if_pos (by rw [hpre]; exact hm)]
        rw [hq]
      · rw [List.chain'_cons']
        refine ⟨?_, hchain⟩
        intro y hy
        have hy' : y ∈ l' := List.mem_of_mem_head? hy
        obtain ⟨f, hf, hfx⟩ := List.mem_map.mp (hmem y hy')
        rw [← hq, ← hfx]
        exact sorted_head_lt hs f hf
      · rw [List.nodup_cons]
        refine ⟨?_, hnodup⟩
        intro hql
        obtain ⟨f, hf, hfx⟩ := List.mem_map.mp (hmem q hql)
        have := sorted_head_lt hs f hf
        rw [hfx, hq, bytesLt_irrefl] at this
        exact Bool.false_ne_true this
    · rw [if_neg hm]
      refine ⟨[], rfl, ?_, List.chain'_nil, List.nodup_nil⟩
      rw [List.map_nil]
      symm
      rw [List.filter_eq_nil]
      intro kb hkb
      rcases List.mem_cons.mp hkb with rfl | hkb'
      · simp [hpre, hm]
      · obtain ⟨f, hf, rfl⟩ := List.mem_map.mp hkb'
        have hstop := listPre_stop (hge e (by simp))
          (by rw [hpre]; exact Bool.not_eq_true _ ▸ hm) (sorted_head_lt hs f hf)
        simp [hstop]



/-- Dropping the entries strictly below the prefix position loses no key
with the prefix: such keys cannot be strictly below the prefix. -/
theorem filter_dropWhile_pre (p : String) :
    ∀ db : EngineState,
      ((db.dropWhile (fun e => bytesLt e.1 (utf8Encode p))).map Prod.fst).filter
          (fun kb => listPre (utf8Encode p) kb) =
        (db.map Prod.fst).filter (fun kb => listPre (utf8Encode p) kb) := by
  intro db
  induction db with
  | nil => rfl
  | cons a db ih =>
    rw [List.dropWhile_cons]
    split
    · rename_i ha
      rw [ih]
      rw [List.map_cons, List.filter_cons]
      rw [if_neg ?hna]
      case hna =>
        cases hx : listPre (utf8Encode p) a.1
        · simp
        · have := listPre_not_bytesLt hx
          rw [this] at ha
          simp at ha
    · rfl

/-- C8: `partial_compare_keys(p)` on a well-formed database (sorted
engine, UTF-8 keys) succeeds and returns exactly the keys with prefix
`p` present in the database, in ascending byte-lexicographic order, with
no duplicates; the iteration starts at `p` (the dropWhile) and the loop
breaks at the first key without the prefix. -/
theorem c8_partial_compare_keys_exact (s : Storage) (p : String)
    (hs : sortedKeysB s.db = true)
    (hk : ∀ e ∈ s.db, ∃ q : String, e.1 = utf8Encode q) :
    ∃ l, s.partial_compare_keys p = .ok l ∧
      l.map utf8Encode =
        (s.db.map Prod.fst).filter (fun kb => listPre (utf8Encode p) kb) ∧
      l.Chain' (fun a b => bytesLt (utf8Encode a) (utf8Encode b) = true) ∧
      l.Nodup := by
  rw [Storage.partial_compare_keys]
  have hsub : ∀ e ∈ s.db.dropWhile (fun e => bytesLt e.1 (utf8Encode p)),
      e ∈ s.db :=
    fun e he => (List.dropWhile_suffix _).sublist.subset he
  obtain ⟨l, h1, h2, h3, h4⟩ := pckLoop_spec p
    (s.db.dropWhile (fun e => bytesLt e.1 (utf8Encode p)))
    (sorted_dropWhile _ hs) (sorted_dropWhile_ge hs)
    (fun e he => hk e (hsub e he))
  refine ⟨l, h1, ?_, h3, h4⟩
  rw [h2, filter_dropWhile_pre]

/-- Witness for C8 on a concrete sorted three-key database. -/
theorem c8_witness :
    ∃ l, (Storage.mk [(utf8Encode "a", []), (utf8Encode "ab", []),
        (utf8Encode "b", [])] [] none ⟨0, 0, 0, 0⟩).partial_compare_keys "a" =
        .ok l ∧
      l.map utf8Encode =
        (([(utf8Encode "a", ([] : List Nat)), (utf8Encode "ab", []),
          (utf8Encode "b", [])] : EngineState).map Prod.fst).filter
          (fun kb => listPre (utf8Encode "a") kb) ∧
      l.Chain' (fun a b => bytesLt (utf8Encode a) (utf8Encode b) = true) ∧
      l.Nodup := by
  refine c8_partial_compare_keys_exact _ "a" (by decide) ?_
  intro e he
  simp only [List.mem_cons, List.not_mem_nil, or_false] at he
  rcases he with rfl | rfl | rfl
  · exact ⟨"a", rfl⟩
  · exact ⟨"ab", rfl⟩
  · exact ⟨"b", rfl⟩



/-- Membership in a character list matches membership of the code point
in the mapped list (`Char.toNat` is injective). -/
theorem char_mem_iff_toNat (c : Char) (l : List Char) :
    c ∈ l ↔ c.toNat ∈ l.map Char.toNat := by
  constructor
  · exact List.mem_map_of_mem Char.toNat
  · intro h
    obtain ⟨d, hd, hdc⟩ := List.mem_map.mp h
    rwa [← charToNat_inj hdc]

/-- Characterization of the fixed special set by the four ASCII ranges it
covers. -/
theorem special_contains_iff (c : Char) :
    SPECIAL.contains c = true ↔
      ((33 ≤ c.toNat ∧ c.toNat ≤ 47) ∨ (58 ≤ c.toNat ∧ c.toNat ≤ 64) ∨
        (91 ≤ c.toNat ∧ c.toNat ≤ 96) ∨ (123 ≤ c.toNat ∧ c.toNat ≤ 126)) := by
  rw [List.elem_iff]
  rw [char_mem_iff_toNat]
  rw [show SPECIAL.map Char.toNat =
    [33, 34, 35, 36, 37, 38, 39, 40, 41, 42, 43, 44, 45, 46, 47, 58, 59, 60,
      61, 62, 63, 64, 91, 92, 93, 94, 95, 96, 123, 124, 125, 126] by decide]
  simp only [List.mem_cons, List.not_mem_nil, or_false]
  omega

/-- Characterization of the fixed uppercase Latin set. -/
theorem uppercase_contains_iff (c : Char) :
    UPPERCASE.contains c = true ↔ (65 ≤ c.toNat ∧ c.toNat ≤ 90) := by
  rw [List.elem_iff]
  rw [char_mem_iff_toNat]
  rw [show UPPERCASE.map Char.toNat =
    [65, 66, 67, 68, 69, 70, 71, 72, 73, 74, 75, 76, 77, 78, 79, 80, 81, 82,
      83, 84, 85, 86, 87, 88, 89, 90] by decide]
  simp only [List.mem_cons, List.not_mem_nil, or_false]
  omega

/-- Characterization of the fixed digit set. -/
theorem digits_contains_iff (c : Char) :
    DIGITS.contains c = true ↔ (48 ≤ c.toNat ∧ c.toNat ≤ 57) := by
  rw [List.elem_iff]
  rw [char_mem_iff_toNat]
  rw [show DIGITS.map Char.toNat =
    [48, 49, 50, 51, 52, 53, 54, 55, 56, 57] by decide]
  simp only [List.mem_cons, List.not_mem_nil, or_false]
  omega



/-- C9 (amended): `is_valid` returns true iff the UTF-8 byte length of
the password — not its character count — reaches `min_length`, and the
character counts in the fixed uppercase Latin range, the ASCII digit
range and the fixed ASCII special ranges reach their minima. -/
theorem c9_is_valid_iff (pol : PasswordPolicy) (p : String) :
    pol.is_valid p = true ↔
      (pol.min_length ≤ (utf8Encode p).length ∧
        pol.min_number_of_uppercase ≤
          (p.data.filter (fun c => decide (65 ≤ c.toNat ∧ c.toNat ≤ 90))).length ∧
        pol.min_number_of_digits ≤
          (p.data.filter (fun c => decide (48 ≤ c.toNat ∧ c.toNat ≤ 57))).length ∧
        pol.min_number_of_special_chars ≤
          (p.data.filter (fun c =>
            decide ((33 ≤ c.toNat ∧ c.toNat ≤ 47) ∨ (58 ≤ c.toNat ∧ c.toNat ≤ 64) ∨
              (91 ≤ c.toNat ∧ c.toNat ≤ 96) ∨
                (123 ≤ c.toNat ∧ c.toNat ≤ 126)))).length) := by
  have hsp : p.data.filter (fun c => SPECIAL.contains c) =
      p.data.filter (fun c =>
        decide ((33 ≤ c.toNat ∧ c.toNat ≤ 47) ∨ (58 ≤ c.toNat ∧ c.toNat ≤ 64) ∨
          (91 ≤ c.toNat ∧ c.toNat ≤ 96) ∨ (123 ≤ c.toNat ∧ c.toNat ≤ 126))) := by
    refine List.filter_congr ?_
    intro c _
    rw [Bool.eq_iff_iff, decide_eq_true_eq]
    exact special_contains_iff c
  have hup : p.data.filter (fun c => UPPERCASE.contains c) =
      p.data.filter (fun c => decide (65 ≤ c.toNat ∧ c.toNat ≤ 90)) := by
    refine List.filter_congr ?_
    intro c _
    rw [Bool.eq_iff_iff, decide_eq_true_eq]
    exact uppercase_contains_iff c
  have hdg : p.data.filter (fun c => DIGITS.contains c) =
      p.data.filter (fun c => decide (48 ≤ c.toNat ∧ c.toNat ≤ 57)) := by
    refine List.filter_congr ?_
    intro c _
    rw [Bool.eq_iff_iff, decide_eq_true_eq]
    exact digits_contains_iff c
  simp only [PasswordPolicy.is_valid, hsp, hup, hdg, Bool.and_eq_true,
    decide_eq_true_eq, ge_iff_le]
  tauto

end BitVMX
